import Mathlib

/-!
Shallow embedding of budoux-rs (`src/lib.rs`), a machine-learning based
text segmenter, together with proofs of the specified properties.

Conventions of the embedding:
* A Rust `String` / `&str` becomes a Lean `String`, a `Vec<char>` a `List Char`.
* The trained model (`HashMap<String, i32>`) becomes an optional-valued
  map `String → Option Int`; `map.get(k).unwrap_or(&0)` becomes `(model k).getD 0`.
* `i32` arithmetic is embedded as `Int` arithmetic reduced into
  `[-2^31, 2^31)` after every addition (two's-complement wrap-around),
  written with an explicit `% 2^32`.
* The static table `unicode_blocks::UNICODE_BLOCKS` is generated data whose
  source file is not part of the sources; every function takes the table as
  an explicit `List Nat` parameter, assumed sorted where a proof needs it.
-/

namespace Budoux

/-- Model is the trained machine learning model: a map from feature key
(String) to score (i32), embedded as an optional-valued map. -/
def Model : Type := String → Option Int

/-- INVALID_FEATURE indicates an invalid feature (sentinel block string). -/
def INVALID_FEATURE : String := "▔"

/-- DEFAULT_THRESHOLD is the default threshold for splitting sentences. -/
def DEFAULT_THRESHOLD : Int := 1000

/-- Reduce an integer into the `i32` range `[-2^31, 2^31)` (two's-complement
wrap-around, the semantics of Rust `i32` overflow in release builds). -/
def i32wrap (n : Int) : Int := (n + 2147483648) % 4294967296 - 2147483648

/-- Addition of two i32 values: add, then wrap into the 32-bit range. -/
def i32add (a b : Int) : Int := i32wrap (a + b)

/-- Core loop of Rust's `slice::binary_search` on `a[lo..hi]`:
`Except.ok i` when `a[i] = x` was found, `Except.error e` with the
insertion point `e` otherwise.  The first `Nat` argument is fuel bounding
the number of iterations (any `fuel ≥ hi - lo` gives the loop's value);
it makes the recursion structural so that the kernel can evaluate it. -/
def binarySearchGo (a : List Nat) (x : Nat) : Nat → Nat → Nat → Except Nat Nat
  | 0, lo, _ => Except.error lo
  | fuel + 1, lo, hi =>
    if lo < hi then
      let mid := (lo + hi) / 2
      if a.getD mid 0 < x then binarySearchGo a x fuel (mid + 1) hi
      else if x < a.getD mid 0 then binarySearchGo a x fuel lo mid
      else Except.ok mid
    else Except.error lo

/-- Embedding of the source's UNICODE_BLOCKS.binary_search(&c) call. -/
def binary_search (a : List Nat) (x : Nat) : Except Nat Nat :=
  binarySearchGo a x a.length 0 a.length

/-- Embedding of the source's match on the search result: the matched
index plus one on Ok, the insertion point on Err. -/
def searchPos (table : List Nat) (c : Nat) : Nat :=
  match binary_search table c with
  | Except.ok v => v + 1
  | Except.error e => e

/-- The Rust format specifier used by the source: decimal, right-aligned,
zero-filled to minimum width 3. -/
def zeroPad3 (s : String) : String :=
  String.mk (List.replicate (3 - s.length) '0') ++ s

/-- get_unicode_block_and_feature returns unicode character and block feature
from char slice.  Direct translation of the source function; the block table
is the abstracted `table` parameter. -/
def get_unicode_block_and_feature (table : List Nat) (chars : List Char)
    (index : Nat) : String × String :=
  if chars.length ≤ index then
    ("", INVALID_FEATURE)
  else
    let v := chars.getD index 'a'
    let c := v.toNat
    let pos := searchPos table c
    (String.mk [v], zeroPad3 (Nat.repr pos))

/-- key returns the feature key: the working buffer is cleared
(`buf.clear()`), then every parameter is appended in order. -/
def key (buf : String) (params : List String) : String :=
  let cleared : String := ""
  params.foldl (fun b p => b ++ p) cleared

/-- get_feature returns the boundary score: the `i32` sum of the model
weights of the 42 feature keys, a missing key contributing 0.  Direct
translation of the source function (one `score += …` per line). -/
def get_feature (model : Model) (buf : String)
    (w1 w2 w3 w4 w5 w6 b1 b2 b3 b4 b5 b6 p1 p2 p3 : String) : Int :=
  let score : Int := 0
  let score := i32add score ((model (key buf ["UP1:", p1])).getD 0)
  let score := i32add score ((model (key buf ["UP2:", p2])).getD 0)
  let score := i32add score ((model (key buf ["UP3:", p3])).getD 0)
  let score := i32add score ((model (key buf ["BP1:", p1, p2])).getD 0)
  let score := i32add score ((model (key buf ["BP2:", p2, p3])).getD 0)
  let score := i32add score ((model (key buf ["UW1:", w1])).getD 0)
  let score := i32add score ((model (key buf ["UW2:", w2])).getD 0)
  let score := i32add score ((model (key buf ["UW3:", w3])).getD 0)
  let score := i32add score ((model (key buf ["UW4:", w4])).getD 0)
  let score := i32add score ((model (key buf ["UW5:", w5])).getD 0)
  let score := i32add score ((model (key buf ["UW6:", w6])).getD 0)
  let score := i32add score ((model (key buf ["BW1:", w2, w3])).getD 0)
  let score := i32add score ((model (key buf ["BW2:", w3, w4])).getD 0)
  let score := i32add score ((model (key buf ["BW3:", w4, w5])).getD 0)
  let score := i32add score ((model (key buf ["TW1:", w1, w2, w3])).getD 0)
  let score := i32add score ((model (key buf ["TW2:", w2, w3, w4])).getD 0)
  let score := i32add score ((model (key buf ["TW3:", w3, w4, w5])).getD 0)
  let score := i32add score ((model (key buf ["TW4:", w4, w5, w6])).getD 0)
  let score := i32add score ((model (key buf ["UB1:", b1])).getD 0)
  let score := i32add score ((model (key buf ["UB2:", b2])).getD 0)
  let score := i32add score ((model (key buf ["UB3:", b3])).getD 0)
  let score := i32add score ((model (key buf ["UB4:", b4])).getD 0)
  let score := i32add score ((model (key buf ["UB5:", b5])).getD 0)
  let score := i32add score ((model (key buf ["UB6:", b6])).getD 0)
  let score := i32add score ((model (key buf ["BB1:", b2, b3])).getD 0)
  let score := i32add score ((model (key buf ["BB2:", b3, b4])).getD 0)
  let score := i32add score ((model (key buf ["BB3:", b4, b5])).getD 0)
  let score := i32add score ((model (key buf ["TB1:", b1, b2, b3])).getD 0)
  let score := i32add score ((model (key buf ["TB2:", b2, b3, b4])).getD 0)
  let score := i32add score ((model (key buf ["TB3:", b3, b4, b5])).getD 0)
  let score := i32add score ((model (key buf ["TB4:", b4, b5, b6])).getD 0)
  let score := i32add score ((model (key buf ["UQ1:", p1, b1])).getD 0)
  let score := i32add score ((model (key buf ["UQ2:", p2, b2])).getD 0)
  let score := i32add score ((model (key buf ["UQ3:", p3, b3])).getD 0)
  let score := i32add score ((model (key buf ["BQ1:", p2, b2, b3])).getD 0)
  let score := i32add score ((model (key buf ["BQ2:", p2, b3, b4])).getD 0)
  let score := i32add score ((model (key buf ["BQ3:", p3, b2, b3])).getD 0)
  let score := i32add score ((model (key buf ["BQ4:", p3, b3, b4])).getD 0)
  let score := i32add score ((model (key buf ["TQ1:", p2, b1, b2, b3])).getD 0)
  let score := i32add score ((model (key buf ["TQ2:", p2, b2, b3, b4])).getD 0)
  let score := i32add score ((model (key buf ["TQ3:", p3, b1, b2, b3])).getD 0)
  let score := i32add score ((model (key buf ["TQ4:", p3, b2, b3, b4])).getD 0)
  score

/-- The sliding-window state of the parse loop: the three decision tags and
the five already-computed character/block windows (`w6`/`b6` is computed
fresh at each boundary). -/
structure FeatState where
  p1 : String
  p2 : String
  p3 : String
  w1 : String
  w2 : String
  w3 : String
  w4 : String
  w5 : String
  b1 : String
  b2 : String
  b3 : String
  b4 : String
  b5 : String

/-- One window/decision-tag advance of the parse loop (source lines
`p1 = p2; … w1 = w2; … b5 = b6;`). -/
def nextFS (fs : FeatState) (w6 b6 : String) (score : Int) : FeatState :=
  { p1 := fs.p2, p2 := fs.p3, p3 := if score > 0 then "B" else "O",
    w1 := fs.w2, w2 := fs.w3, w3 := fs.w4, w4 := fs.w5, w5 := w6,
    b1 := fs.b2, b2 := fs.b3, b3 := fs.b4, b4 := fs.b5, b5 := b6 }

/-- The initial window state of the parse loop (boundary `i = 1`). -/
def initFS (table : List Nat) (chars : List Char) : FeatState :=
  let wb3 := get_unicode_block_and_feature table chars 0
  let wb4 := get_unicode_block_and_feature table chars 1
  let wb5 := get_unicode_block_and_feature table chars 2
  { p1 := "U", p2 := "U", p3 := "U",
    w1 := "", w2 := "", w3 := wb3.1, w4 := wb4.1, w5 := wb5.1,
    b1 := INVALID_FEATURE, b2 := INVALID_FEATURE,
    b3 := wb3.2, b4 := wb4.2, b5 := wb5.2 }

/-- The score computed at boundary `i` from window state `fs`
(the `get_feature` call in the loop, with `w6`/`b6` freshly computed). -/
def boundary_score (table : List Nat) (model : Model) (chars : List Char)
    (i : Nat) (fs : FeatState) : Int :=
  let wb6 := get_unicode_block_and_feature table chars (i + 2)
  get_feature model "" fs.w1 fs.w2 fs.w3 fs.w4 fs.w5 wb6.1
    fs.b1 fs.b2 fs.b3 fs.b4 fs.b5 wb6.2 fs.p1 fs.p2 fs.p3

/-- The main loop of `parse_with_threshold` (`for i in 1..chars.len()`),
followed by the terminal flush of the buffer.  The loop is driven by the
number `n` of remaining iterations (the source's `chars.len() - i`), making
the recursion structural; `i` is the current boundary index. -/
def ploop (table : List Nat) (model : Model) (chars : List Char)
    (threshold : Int) :
    Nat → Nat → FeatState → String → List String → List String
  | 0, _, _, buf, out => if buf = "" then out else out ++ [buf]
  | n + 1, i, fs, buf, out =>
    let score := boundary_score table model chars i fs
    let wb6 := get_unicode_block_and_feature table chars (i + 2)
    let fs' := nextFS fs wb6.1 wb6.2 score
    if score > threshold then
      ploop table model chars threshold n (i + 1) fs' fs.w4 (out ++ [buf])
    else
      ploop table model chars threshold n (i + 1) fs' (buf ++ fs.w4) out

/-- parse_with_threshold returns the split string slices of the input. -/
def parse_with_threshold (table : List Nat) (model : Model) (input : String)
    (threshold : Int) : List String :=
  let chars := input.data
  if chars.length ≤ 1 then [input]
  else
    ploop table model chars threshold (chars.length - 1) 1 (initFS table chars)
      (String.mk (chars.take 1)) []

/-- parse is shorthand for `parse_with_threshold … DEFAULT_THRESHOLD`. -/
def parse (table : List Nat) (model : Model) (input : String) : List String :=
  parse_with_threshold table model input DEFAULT_THRESHOLD

/-- The sequence of boundary scores of a parse: same window/decision-tag
recursion as `ploop` (`n` remaining iterations starting at boundary `i`),
but collecting the scores.  Note that it takes no threshold. -/
def sloop (table : List Nat) (model : Model) (chars : List Char) :
    Nat → Nat → FeatState → List Int
  | 0, _, _ => []
  | n + 1, i, fs =>
    let score := boundary_score table model chars i fs
    let wb6 := get_unicode_block_and_feature table chars (i + 2)
    score :: sloop table model chars n (i + 1) (nextFS fs wb6.1 wb6.2 score)

/-- The character-rendering component of `get_unicode_block_and_feature`
(`w` value): the one-character string at `i`, or `""` out of range. -/
def charStr (chars : List Char) (i : Nat) : String :=
  if chars.length ≤ i then "" else String.mk [chars.getD i 'a']

/-- Chunk construction from a boundary-score sequence: split whenever the
score exceeds the threshold, then flush the non-empty buffer. -/
def build (chars : List Char) (threshold : Int) :
    Nat → List Int → String → List String → List String
  | _, [], buf, out => if buf = "" then out else out ++ [buf]
  | i, s :: rest, buf, out =>
    if s > threshold then
      build chars threshold (i + 1) rest (charStr chars i) (out ++ [buf])
    else
      build chars threshold (i + 1) rest (buf ++ charStr chars i) out

/-- The catalogue of the 42 feature keys, written as the spec writes them:
family tag concatenated with the window values, no other separator. -/
def featureKeys (w1 w2 w3 w4 w5 w6 b1 b2 b3 b4 b5 b6 p1 p2 p3 : String) :
    List String :=
  ["UP1:" ++ p1, "UP2:" ++ p2, "UP3:" ++ p3,
   "BP1:" ++ p1 ++ p2, "BP2:" ++ p2 ++ p3,
   "UW1:" ++ w1, "UW2:" ++ w2, "UW3:" ++ w3,
   "UW4:" ++ w4, "UW5:" ++ w5, "UW6:" ++ w6,
   "BW1:" ++ w2 ++ w3, "BW2:" ++ w3 ++ w4, "BW3:" ++ w4 ++ w5,
   "TW1:" ++ w1 ++ w2 ++ w3, "TW2:" ++ w2 ++ w3 ++ w4,
   "TW3:" ++ w3 ++ w4 ++ w5, "TW4:" ++ w4 ++ w5 ++ w6,
   "UB1:" ++ b1, "UB2:" ++ b2, "UB3:" ++ b3,
   "UB4:" ++ b4, "UB5:" ++ b5, "UB6:" ++ b6,
   "BB1:" ++ b2 ++ b3, "BB2:" ++ b3 ++ b4, "BB3:" ++ b4 ++ b5,
   "TB1:" ++ b1 ++ b2 ++ b3, "TB2:" ++ b2 ++ b3 ++ b4,
   "TB3:" ++ b3 ++ b4 ++ b5, "TB4:" ++ b4 ++ b5 ++ b6,
   "UQ1:" ++ p1 ++ b1, "UQ2:" ++ p2 ++ b2, "UQ3:" ++ p3 ++ b3,
   "BQ1:" ++ p2 ++ b2 ++ b3, "BQ2:" ++ p2 ++ b3 ++ b4,
   "BQ3:" ++ p3 ++ b2 ++ b3, "BQ4:" ++ p3 ++ b3 ++ b4,
   "TQ1:" ++ p2 ++ b1 ++ b2 ++ b3, "TQ2:" ++ p2 ++ b2 ++ b3 ++ b4,
   "TQ3:" ++ p3 ++ b1 ++ b2 ++ b3, "TQ4:" ++ p3 ++ b2 ++ b3 ++ b4]

/-- The mathematical (unwrapped) integer sum of the model weights over the
42-key catalogue, a missing key contributing 0 — the spec's description of
the score. -/
def specFeatureSum (model : Model)
    (w1 w2 w3 w4 w5 w6 b1 b2 b3 b4 b5 b6 p1 p2 p3 : String) : Int :=
  ((featureKeys w1 w2 w3 w4 w5 w6 b1 b2 b3 b4 b5 b6 p1 p2 p3).map
    (fun k => (model k).getD 0)).sum

/-- Concatenation of the character lists of a list of strings. -/
def joinData : List String → List Char
  | [] => []
  | s :: rest => s.data ++ joinData rest

set_option maxRecDepth 100000

-- Basic facts about the embedded 32-bit arithmetic.

theorem i32wrap_lb (n : Int) : -2147483648 ≤ i32wrap n := by
  unfold i32wrap; omega

theorem i32wrap_ub (n : Int) : i32wrap n < 2147483648 := by
  unfold i32wrap; omega

theorem i32wrap_emod (n : Int) : i32wrap n % 4294967296 = n % 4294967296 := by
  unfold i32wrap; omega

theorem foldl_i32add_emod (l : List Int) (a : Int) :
    (l.foldl i32add a) % 4294967296 = (a + l.sum) % 4294967296 := by
  induction l generalizing a with
  | nil => simp
  | cons x xs ih =>
    rw [List.foldl_cons, ih, List.sum_cons]
    have h := i32wrap_emod (a + x)
    unfold i32add
    omega

theorem foldl_i32add_range (l : List Int) (a : Int)
    (h1 : -2147483648 ≤ a) (h2 : a < 2147483648) :
    -2147483648 ≤ l.foldl i32add a ∧ l.foldl i32add a < 2147483648 := by
  induction l generalizing a with
  | nil => exact ⟨h1, h2⟩
  | cons x xs ih =>
    rw [List.foldl_cons]
    exact ih (i32add a x) (i32wrap_lb (a + x)) (i32wrap_ub (a + x))

theorem foldl_i32add_eq_sum (l : List Int)
    (h1 : -2147483648 ≤ l.sum) (h2 : l.sum < 2147483648) :
    l.foldl i32add 0 = l.sum := by
  have hm := foldl_i32add_emod l 0
  have hr := foldl_i32add_range l 0 (by omega) (by omega)
  omega

-- get_feature is the left fold of the i32 additions of the looked-up
-- weights over the 42-key catalogue; the working buffer is irrelevant.

theorem get_feature_eq_foldl (model : Model) (buf : String)
    (w1 w2 w3 w4 w5 w6 b1 b2 b3 b4 b5 b6 p1 p2 p3 : String) :
    get_feature model buf w1 w2 w3 w4 w5 w6 b1 b2 b3 b4 b5 b6 p1 p2 p3 =
      ((featureKeys w1 w2 w3 w4 w5 w6 b1 b2 b3 b4 b5 b6 p1 p2 p3).map
        (fun k => (model k).getD 0)).foldl i32add 0 := rfl

theorem get_feature_range (model : Model) (buf : String)
    (w1 w2 w3 w4 w5 w6 b1 b2 b3 b4 b5 b6 p1 p2 p3 : String) :
    -2147483648 ≤
        get_feature model buf w1 w2 w3 w4 w5 w6 b1 b2 b3 b4 b5 b6 p1 p2 p3 ∧
      get_feature model buf w1 w2 w3 w4 w5 w6 b1 b2 b3 b4 b5 b6 p1 p2 p3 <
        2147483648 := by
  rw [get_feature_eq_foldl]
  exact foldl_i32add_range _ 0 (by omega) (by omega)

/-- C2 (amended): for every model and every window, `get_feature` returns
the integer sum, over the fixed catalogue of 42 feature keys (UP1-UP3,
BP1-BP2, UW1-UW6, BW1-BW3, TW1-TW4, UB1-UB6, BB1-BB3, TB1-TB4, UQ1-UQ3,
BQ1-BQ4, TQ1-TQ4), of the model's weight for that key or 0 when the key is
absent — each key the exact concatenation of the family tag with the
window values — provided that sum fits in the signed 32-bit range
(otherwise the `i32` additions wrap).  The result does not depend on the
prior contents of the working buffer. -/
theorem C2_get_feature_sum (model : Model) (buf : String)
    (w1 w2 w3 w4 w5 w6 b1 b2 b3 b4 b5 b6 p1 p2 p3 : String)
    (h1 : -2147483648 ≤
      specFeatureSum model w1 w2 w3 w4 w5 w6 b1 b2 b3 b4 b5 b6 p1 p2 p3)
    (h2 : specFeatureSum model w1 w2 w3 w4 w5 w6 b1 b2 b3 b4 b5 b6 p1 p2 p3 <
      2147483648) :
    get_feature model buf w1 w2 w3 w4 w5 w6 b1 b2 b3 b4 b5 b6 p1 p2 p3 =
      specFeatureSum model w1 w2 w3 w4 w5 w6 b1 b2 b3 b4 b5 b6 p1 p2 p3 := by
  rw [get_feature_eq_foldl]
  exact foldl_i32add_eq_sum _ h1 h2

/-- Witness for C2: on the empty model the wrapped score and the
mathematical sum agree (both 0). -/
theorem C2_get_feature_sum_witness :
    get_feature (fun _ => none) "junk" "" "" "" "" "" "" "" "" "" "" "" ""
        "U" "U" "U" =
      specFeatureSum (fun _ => none) "" "" "" "" "" "" "" "" "" "" "" ""
        "U" "U" "U" :=
  C2_get_feature_sum (fun _ => none) "junk" "" "" "" "" "" "" "" "" "" "" ""
    "" "U" "U" "U" (by decide) (by decide)

/-- Counterexample to C2 as stated: a model giving every key the weight
`i32::MAX` makes the 42 wrapped additions return -42, not the integer sum
90194313174 = 42 * 2147483647. -/
theorem C2_counterexample :
    get_feature (fun _ => some 2147483647) "" "" "" "" "" "" "" "" "" "" ""
        "" "" "U" "U" "U" = -42 ∧
      specFeatureSum (fun _ => some 2147483647) "" "" "" "" "" "" "" "" ""
        "" "" "" "U" "U" "U" = 90194313174 ∧
      get_feature (fun _ => some 2147483647) "" "" "" "" "" "" "" "" "" ""
        "" "" "" "U" "U" "U" ≠
        specFeatureSum (fun _ => some 2147483647) "" "" "" "" "" "" "" ""
          "" "" "" "" "U" "U" "U" :=
  ⟨by decide, by decide, by decide⟩

/-- C9: `key` returns exactly the concatenation of the parameters in
order, independently of the prior contents of the scratch buffer (it is
cleared first), so buffer reuse leaks no state between key builds. -/
theorem C9_key_concat (buf buf' : String) (params : List String) :
    key buf params = String.join params ∧ key buf params = key buf' params :=
  ⟨rfl, rfl⟩

/-- Inputs of at most one character short-circuit to the single
whole-input chunk. -/
theorem parse_short (table : List Nat) (model : Model) (input : String)
    (threshold : Int) (h : input.data.length ≤ 1) :
    parse_with_threshold table model input threshold = [input] := by
  unfold parse_with_threshold
  rw [if_pos h]

/-- C8: an input holding at most one character — including the empty
string, which yields the single empty chunk `[""]` rather than `[]` —
makes `parse_with_threshold` return the one-element vector of the whole
input, for every model, table and threshold. -/
theorem C8_short_input (table : List Nat) (model : Model) (input : String)
    (threshold : Int) (h : input.data.length ≤ 1) :
    parse_with_threshold table model input threshold = [input] :=
  parse_short table model input threshold h

/-- Witness for C8 at the empty input. -/
theorem C8_short_input_witness :
    parse_with_threshold [] (fun _ => none) "" 123 = [""] :=
  C8_short_input [] (fun _ => none) "" 123 (by decide)

-- Unfolding (step) equations of the loops, and small string facts.

theorem ploop_zero (table : List Nat) (model : Model) (chars : List Char)
    (threshold : Int) (i : Nat) (fs : FeatState) (buf : String)
    (out : List String) :
    ploop table model chars threshold 0 i fs buf out =
      if buf = "" then out else out ++ [buf] := rfl

theorem ploop_succ (table : List Nat) (model : Model) (chars : List Char)
    (threshold : Int) (n i : Nat) (fs : FeatState) (buf : String)
    (out : List String) :
    ploop table model chars threshold (n + 1) i fs buf out =
      if boundary_score table model chars i fs > threshold then
        ploop table model chars threshold n (i + 1)
          (nextFS fs (get_unicode_block_and_feature table chars (i + 2)).1
            (get_unicode_block_and_feature table chars (i + 2)).2
            (boundary_score table model chars i fs))
          fs.w4 (out ++ [buf])
      else
        ploop table model chars threshold n (i + 1)
          (nextFS fs (get_unicode_block_and_feature table chars (i + 2)).1
            (get_unicode_block_and_feature table chars (i + 2)).2
            (boundary_score table model chars i fs))
          (buf ++ fs.w4) out := rfl

theorem sloop_zero (table : List Nat) (model : Model) (chars : List Char)
    (i : Nat) (fs : FeatState) :
    sloop table model chars 0 i fs = [] := rfl

theorem sloop_succ (table : List Nat) (model : Model) (chars : List Char)
    (n i : Nat) (fs : FeatState) :
    sloop table model chars (n + 1) i fs =
      boundary_score table model chars i fs ::
        sloop table model chars n (i + 1)
          (nextFS fs (get_unicode_block_and_feature table chars (i + 2)).1
            (get_unicode_block_and_feature table chars (i + 2)).2
            (boundary_score table model chars i fs)) := rfl

theorem build_nil (chars : List Char) (threshold : Int) (i : Nat)
    (buf : String) (out : List String) :
    build chars threshold i [] buf out =
      if buf = "" then out else out ++ [buf] := rfl

theorem build_cons (chars : List Char) (threshold : Int) (i : Nat)
    (s : Int) (rest : List Int) (buf : String) (out : List String) :
    build chars threshold i (s :: rest) buf out =
      if s > threshold then
        build chars threshold (i + 1) rest (charStr chars i) (out ++ [buf])
      else
        build chars threshold (i + 1) rest (buf ++ charStr chars i) out := rfl

theorem gubf_fst (table : List Nat) (chars : List Char) (i : Nat) :
    (get_unicode_block_and_feature table chars i).1 = charStr chars i := by
  unfold get_unicode_block_and_feature charStr
  by_cases h : chars.length ≤ i <;> simp [h]

theorem charStr_data (chars : List Char) (i : Nat) (h : i < chars.length) :
    (charStr chars i).data = [chars.getD i 'a'] := by
  unfold charStr
  rw [if_neg (by omega)]

theorem charStr_ne (chars : List Char) (i : Nat) (h : i < chars.length) :
    charStr chars i ≠ "" := by
  intro hc
  have h2 := congrArg String.data hc
  rw [charStr_data chars i h] at h2
  exact List.cons_ne_nil _ _ h2

theorem append_ne_empty_left (a b : String) (h : a ≠ "") : a ++ b ≠ "" := by
  intro hc
  have h2 := congrArg String.data hc
  rw [String.data_append] at h2
  exact h (String.ext (List.append_eq_nil.mp h2).1)

theorem sloop_length (table : List Nat) (model : Model) (chars : List Char) :
    ∀ n i fs, (sloop table model chars n i fs).length = n := by
  intro n
  induction n with
  | zero => intro i fs; rfl
  | succ m ih =>
    intro i fs
    rw [sloop_succ, List.length_cons, ih]

/-- The parse loop, decomposed: it equals chunk construction (`build`)
from the threshold-independent boundary-score sequence (`sloop`), as long
as the window state renders the characters at `i` and `i + 1`. -/
theorem ploop_eq_build (table : List Nat) (model : Model) (chars : List Char)
    (threshold : Int) :
    ∀ n i fs buf out, fs.w4 = charStr chars i →
    fs.w5 = charStr chars (i + 1) →
    ploop table model chars threshold n i fs buf out =
      build chars threshold i (sloop table model chars n i fs) buf out := by
  intro n
  induction n with
  | zero => intro i fs buf out _ _; rfl
  | succ m ih =>
    intro i fs buf out h4 h5
    rw [ploop_succ, sloop_succ, build_cons, h4]
    have h4' :
        (nextFS fs (get_unicode_block_and_feature table chars (i + 2)).1
          (get_unicode_block_and_feature table chars (i + 2)).2
          (boundary_score table model chars i fs)).w4 =
          charStr chars (i + 1) := h5
    have h5' :
        (nextFS fs (get_unicode_block_and_feature table chars (i + 2)).1
          (get_unicode_block_and_feature table chars (i + 2)).2
          (boundary_score table model chars i fs)).w5 =
          charStr chars (i + 1 + 1) := gubf_fst table chars (i + 2)
    by_cases hs : boundary_score table model chars i fs > threshold
    · rw [if_pos hs, if_pos hs, ih (i + 1) _ _ _ h4' h5']
    · rw [if_neg hs, if_neg hs, ih (i + 1) _ _ _ h4' h5']

theorem getD_eq_getElem {α : Type} (l : List α) (d : α) (i : Nat)
    (h : i < l.length) : l.getD i d = l[i] := by
  simp [List.getD_eq_getElem?_getD, List.getElem?_eq_getElem h]

theorem joinData_append (a b : List String) :
    joinData (a ++ b) = joinData a ++ joinData b := by
  induction a with
  | nil => rfl
  | cons x xs ih => simp [joinData, ih]

theorem string_mk_take_one_ne (chars : List Char) (h : chars ≠ []) :
    String.mk (chars.take 1) ≠ "" := by
  intro hc
  have h2 := congrArg String.data hc
  rcases List.take_eq_nil_iff.mp h2 with h3 | h3
  · exact one_ne_zero h3
  · exact h h3

/-- Chunk construction reproduces the input: the concatenated character
data of the built chunks is the pending data plus the remaining input. -/
theorem build_join (chars : List Char) (threshold : Int) :
    ∀ (scores : List Int) (i : Nat) (buf : String) (out : List String),
    i + scores.length = chars.length →
    joinData (build chars threshold i scores buf out) =
      joinData out ++ buf.data ++ chars.drop i := by
  intro scores
  induction scores with
  | nil =>
    intro i buf out hlen
    simp at hlen
    rw [build_nil, List.drop_eq_nil_of_le (by omega)]
    by_cases hb : buf = ""
    · rw [if_pos hb, hb]; simp
    · rw [if_neg hb, joinData_append]; simp [joinData]
  | cons s rest ih =>
    intro i buf out hlen
    have hi : i < chars.length := by simp at hlen; omega
    rw [build_cons, List.drop_eq_getElem_cons hi]
    by_cases hs : s > threshold
    · rw [if_pos hs, ih (i + 1) _ _ (by simp at hlen ⊢; omega),
        joinData_append, charStr_data chars i hi, getD_eq_getElem chars 'a' i hi]
      simp [joinData]
    · rw [if_neg hs, ih (i + 1) _ _ (by simp at hlen ⊢; omega),
        String.data_append, charStr_data chars i hi, getD_eq_getElem chars 'a' i hi]
      simp

/-- Chunk construction emits one chunk per above-threshold score, plus the
final flush of the (non-empty) buffer. -/
theorem build_length (chars : List Char) (threshold : Int) :
    ∀ (scores : List Int) (i : Nat) (buf : String) (out : List String),
    i + scores.length ≤ chars.length → buf ≠ "" →
    (build chars threshold i scores buf out).length =
      out.length + 1 + scores.countP (fun s => decide (s > threshold)) := by
  intro scores
  induction scores with
  | nil =>
    intro i buf out _ hb
    rw [build_nil, if_neg hb]
    simp
  | cons s rest ih =>
    intro i buf out hlen hb
    have hi : i < chars.length := by simp at hlen; omega
    rw [build_cons, List.countP_cons]
    by_cases hs : s > threshold
    · rw [if_pos hs,
        ih (i + 1) _ _ (by simp at hlen ⊢; omega) (charStr_ne chars i hi)]
      simp [hs]
      omega
    · rw [if_neg hs,
        ih (i + 1) _ _ (by simp at hlen ⊢; omega)
          (append_ne_empty_left buf _ hb)]
      simp [hs]

/-- Every chunk the construction emits is a non-empty string. -/
theorem build_ne (chars : List Char) (threshold : Int) :
    ∀ (scores : List Int) (i : Nat) (buf : String) (out : List String),
    i + scores.length ≤ chars.length → buf ≠ "" → (∀ c ∈ out, c ≠ "") →
    ∀ c ∈ build chars threshold i scores buf out, c ≠ "" := by
  intro scores
  induction scores with
  | nil =>
    intro i buf out _ hb hout c hc
    rw [build_nil, if_neg hb] at hc
    rcases List.mem_append.mp hc with h | h
    · exact hout c h
    · rw [List.mem_singleton] at h; subst h; exact hb
  | cons s rest ih =>
    intro i buf out hlen hb hout c hc
    have hi : i < chars.length := by simp at hlen; omega
    rw [build_cons] at hc
    by_cases hs : s > threshold
    · rw [if_pos hs] at hc
      refine ih (i + 1) _ _ (by simp at hlen ⊢; omega)
        (charStr_ne chars i hi) ?_ c hc
      intro d hd
      rcases List.mem_append.mp hd with h | h
      · exact hout d h
      · rw [List.mem_singleton] at h; subst h; exact hb
    · rw [if_neg hs] at hc
      exact ih (i + 1) _ _ (by simp at hlen ⊢; omega)
        (append_ne_empty_left buf _ hb) hout c hc

theorem initFS_w4 (table : List Nat) (chars : List Char) :
    (initFS table chars).w4 = charStr chars 1 := gubf_fst table chars 1

theorem initFS_w5 (table : List Nat) (chars : List Char) :
    (initFS table chars).w5 = charStr chars 2 := gubf_fst table chars 2

/-- On inputs of at least two characters, the parse is chunk construction
from the threshold-independent boundary-score sequence. -/
theorem parse_eq_build (table : List Nat) (model : Model) (input : String)
    (threshold : Int) (h : 1 < input.data.length) :
    parse_with_threshold table model input threshold =
      build input.data threshold 1
        (sloop table model input.data (input.data.length - 1) 1
          (initFS table input.data))
        (String.mk (input.data.take 1)) [] := by
  unfold parse_with_threshold
  rw [if_neg (by omega)]
  exact ploop_eq_build table model input.data threshold _ 1 _ _ _
    (initFS_w4 table input.data) (initFS_w5 table input.data)

/-- Concatenating the chunks of a parse reproduces the input's characters
exactly. -/
theorem parse_join (table : List Nat) (model : Model) (input : String)
    (threshold : Int) :
    joinData (parse_with_threshold table model input threshold) =
      input.data := by
  by_cases h : input.data.length ≤ 1
  · unfold parse_with_threshold
    rw [if_pos h]
    simp [joinData]
  · rw [parse_eq_build table model input threshold (by omega)]
    rw [build_join input.data threshold _ 1 _ []
      (by rw [sloop_length]; omega)]
    simp [joinData]
    simpa using List.take_append_drop 1 input.data

/-- Every boundary score is below `2^31`: each score is a `get_feature`
value, which ends in a wrapped 32-bit addition. -/
theorem sloop_lt (table : List Nat) (model : Model) (chars : List Char) :
    ∀ n i fs, ∀ s ∈ sloop table model chars n i fs, s < 2147483648 := by
  intro n
  induction n with
  | zero =>
    intro i fs s hs
    rw [sloop_zero] at hs
    exact absurd hs (List.not_mem_nil s)
  | succ m ih =>
    intro i fs s hs
    rw [sloop_succ] at hs
    rcases List.mem_cons.mp hs with h | h
    · subst h
      exact (get_feature_range model "" fs.w1 fs.w2 fs.w3 fs.w4 fs.w5
        (get_unicode_block_and_feature table chars (i + 2)).1
        fs.b1 fs.b2 fs.b3 fs.b4 fs.b5
        (get_unicode_block_and_feature table chars (i + 2)).2
        fs.p1 fs.p2 fs.p3).2
    · exact ih (i + 1) _ s h

/-- C1: for every model, threshold and input, the chunks returned by
`parse_with_threshold`, concatenated in order, reproduce the input's
character sequence exactly — so no character is added, dropped or
reordered, and every chunk boundary falls on a character boundary. -/
theorem C1_parse_concat (table : List Nat) (model : Model) (input : String)
    (threshold : Int) :
    joinData (parse_with_threshold table model input threshold) =
      input.data :=
  parse_join table model input threshold

/-- C5: for thresholds `t1 ≤ t2`, parsing with `t2` yields at most as many
chunks as parsing with `t1` (threshold monotonicity). -/
theorem C5_threshold_mono (table : List Nat) (model : Model) (input : String)
    (t1 t2 : Int) (h : t1 ≤ t2) :
    (parse_with_threshold table model input t2).length ≤
      (parse_with_threshold table model input t1).length := by
  by_cases hlen : input.data.length ≤ 1
  · rw [parse_short table model input t1 hlen,
      parse_short table model input t2 hlen]
  · have hl2 : (1 : Nat) < input.data.length := by omega
    have hne : input.data ≠ [] := by
      intro hd; rw [hd] at hl2; simp at hl2
    rw [parse_eq_build table model input t1 hl2,
      parse_eq_build table model input t2 hl2,
      build_length input.data t2 _ 1 _ [] (by rw [sloop_length]; omega)
        (string_mk_take_one_ne input.data hne),
      build_length input.data t1 _ 1 _ [] (by rw [sloop_length]; omega)
        (string_mk_take_one_ne input.data hne)]
    apply Nat.add_le_add_left
    apply List.countP_mono_left
    intro s _ hp
    simp at hp ⊢
    omega

/-- Witness for C5 on a concrete two-character input. -/
theorem C5_threshold_mono_witness :
    (parse_with_threshold [] (fun _ => none) "ab" 1).length ≤
      (parse_with_threshold [] (fun _ => none) "ab" 0).length :=
  C5_threshold_mono [] (fun _ => none) "ab" 0 1 (by decide)

/-- C6: the parse decomposes through the threshold-free boundary-score
sequence `sloop` — so for a fixed model and input the boundary scores are
the same for every threshold — the initial decision tags are all the
unknown tag "U", and each step rotates the ring (`p1 ← p2`, `p2 ← p3`)
with the new `p3` the positive tag "B" exactly when the score is positive
and the negative tag "O" otherwise. -/
theorem C6_tag_ring (table : List Nat) (model : Model) (input : String)
    (threshold : Int) (h : 2 ≤ input.data.length) :
    (parse_with_threshold table model input threshold =
      build input.data threshold 1
        (sloop table model input.data (input.data.length - 1) 1
          (initFS table input.data))
        (String.mk (input.data.take 1)) []) ∧
    (initFS table input.data).p1 = "U" ∧
    (initFS table input.data).p2 = "U" ∧
    (initFS table input.data).p3 = "U" ∧
    (∀ fs w6 b6 s, (nextFS fs w6 b6 s).p1 = fs.p2 ∧
      (nextFS fs w6 b6 s).p2 = fs.p3 ∧
      (0 < s → (nextFS fs w6 b6 s).p3 = "B") ∧
      (s ≤ 0 → (nextFS fs w6 b6 s).p3 = "O")) := by
  refine ⟨parse_eq_build table model input threshold (by omega),
    rfl, rfl, rfl, fun fs w6 b6 s => ⟨rfl, rfl, ?_, ?_⟩⟩
  · intro hs
    show (if s > 0 then "B" else "O") = "B"
    rw [if_pos hs]
  · intro hs
    show (if s > 0 then "B" else "O") = "O"
    rw [if_neg (by omega)]

/-- Witness for C6 on a concrete two-character input. -/
theorem C6_tag_ring_witness :
    parse_with_threshold [] (fun _ => none) "ab" 0 =
      build "ab".data 0 1
        (sloop [] (fun _ => none) "ab".data ("ab".data.length - 1) 1
          (initFS [] "ab".data))
        (String.mk ("ab".data.take 1)) [] :=
  (C6_tag_ring [] (fun _ => none) "ab" 0 (by decide)).1

/-- C7: with threshold `i32::MAX = 2147483647` no boundary score can
exceed the threshold (scores are wrapped 32-bit sums), so the parse
returns exactly one chunk equal to the whole input, for every model and
input. -/
theorem C7_max_threshold (table : List Nat) (model : Model)
    (input : String) :
    parse_with_threshold table model input 2147483647 = [input] := by
  by_cases hlen : input.data.length ≤ 1
  · exact parse_short table model input 2147483647 hlen
  · have hl2 : (1 : Nat) < input.data.length := by omega
    have hne : input.data ≠ [] := by
      intro hd; rw [hd] at hl2; simp at hl2
    have hj := parse_join table model input 2147483647
    have hcount :
        (sloop table model input.data (input.data.length - 1) 1
          (initFS table input.data)).countP
            (fun s => decide (s > 2147483647)) = 0 := by
      apply List.countP_eq_zero.mpr
      intro s hs
      have hlt := sloop_lt table model input.data _ 1 _ s hs
      simp
      omega
    have hlen1 :
        (parse_with_threshold table model input 2147483647).length = 1 := by
      rw [parse_eq_build table model input 2147483647 hl2,
        build_length input.data 2147483647 _ 1 _ []
          (by rw [sloop_length]; omega)
          (string_mk_take_one_ne input.data hne), hcount]
      rfl
    obtain ⟨x, hx⟩ := List.length_eq_one.mp hlen1
    rw [hx] at hj ⊢
    have hd : x.data = input.data := by simpa [joinData] using hj
    rw [String.ext hd]

/-- C10: for a non-empty input, every chunk of the parse is a non-empty
string. -/
theorem C10_chunks_nonempty (table : List Nat) (model : Model)
    (input : String) (threshold : Int) (h : input ≠ "") :
    ∀ c ∈ parse_with_threshold table model input threshold, c ≠ "" := by
  by_cases hlen : input.data.length ≤ 1
  · rw [parse_short table model input threshold hlen]
    intro c hc
    rw [List.mem_singleton] at hc
    subst hc
    exact h
  · rw [parse_eq_build table model input threshold (by omega)]
    refine build_ne input.data threshold _ 1 _ []
      (by rw [sloop_length]; omega)
      (string_mk_take_one_ne input.data ?_) ?_
    · intro hd
      exact h (String.ext hd)
    · intro c hc
      exact absurd hc (List.not_mem_nil c)

/-- Witness for C10: the single chunk of a concrete parse is non-empty. -/
theorem C10_chunks_nonempty_witness : ("ab" : String) ≠ "" :=
  C10_chunks_nonempty [] (fun _ => none) "ab" 1000 (by decide) "ab"
    (by decide)

-- Correctness of the binary search over a sorted table.

theorem binarySearchGo_zero (a : List Nat) (x lo hi : Nat) :
    binarySearchGo a x 0 lo hi = Except.error lo := rfl

theorem binarySearchGo_succ (a : List Nat) (x fuel lo hi : Nat) :
    binarySearchGo a x (fuel + 1) lo hi =
      if lo < hi then
        if a.getD ((lo + hi) / 2) 0 < x then
          binarySearchGo a x fuel ((lo + hi) / 2 + 1) hi
        else if x < a.getD ((lo + hi) / 2) 0 then
          binarySearchGo a x fuel lo ((lo + hi) / 2)
        else Except.ok ((lo + hi) / 2)
      else Except.error lo := rfl

/-- A Boolean predicate that holds on exactly an initial segment of a list
selects exactly that initial segment. -/
theorem filter_eq_take {α : Type} (p : α → Bool) :
    ∀ (a : List α) (n : Nat), n ≤ a.length →
    (∀ j (hj : j < a.length), j < n → p a[j] = true) →
    (∀ j (hj : j < a.length), n ≤ j → p a[j] = false) →
    a.filter p = a.take n := by
  intro a
  induction a with
  | nil => intro n _ _ _; simp
  | cons x xs ih =>
    intro n hn h1 h2
    cases n with
    | zero =>
      have hx : p x = false := h2 0 (by simp) (Nat.le_refl 0)
      rw [List.take_zero, List.filter_cons_of_neg (by simp [hx])]
      refine List.filter_eq_nil_iff.mpr ?_
      intro b hb
      obtain ⟨j, hj, hje⟩ := List.mem_iff_getElem.mp hb
      have hf := h2 (j + 1) (by simpa using hj) (Nat.zero_le _)
      rw [List.getElem_cons_succ] at hf
      rw [← hje]
      simp [hf]
    | succ m =>
      have hx : p x = true := h1 0 (by simp) (Nat.succ_pos m)
      rw [List.take_succ_cons, List.filter_cons_of_pos hx]
      congr 1
      refine ih m (by simpa using hn) ?_ ?_
      · intro j hj hlt
        have hf := h1 (j + 1) (by simpa using hj) (by omega)
        rwa [List.getElem_cons_succ] at hf
      · intro j hj hle
        have hf := h2 (j + 1) (by simpa using hj) (by omega)
        rwa [List.getElem_cons_succ] at hf

/-- When everything before `lo` is below `x` and everything from `lo` on is
above `x`, the key is absent and `lo` counts the entries below `x`. -/
theorem bs_not_found (a : List Nat) (x lo : Nat) (hlo : lo ≤ a.length)
    (hlow : ∀ j (hj : j < a.length), j < lo → a[j] < x)
    (hhigh : ∀ j (hj : j < a.length), lo ≤ j → x < a[j]) :
    x ∉ a ∧ (a.filter (fun b => decide (b < x))).length = lo := by
  constructor
  · intro hmem
    obtain ⟨j, hj, hje⟩ := List.mem_iff_getElem.mp hmem
    rcases Nat.lt_or_ge j lo with h | h
    · have := hlow j hj h; omega
    · have := hhigh j hj h; omega
  · rw [filter_eq_take (fun b => decide (b < x)) a lo hlo
      (fun j hj hlt => by simpa using hlow j hj hlt)
      (fun j hj hle => by have := hhigh j hj hle; simp; omega)]
    exact List.length_take_of_le hlo

/-- Correctness of the binary-search loop on a strictly sorted table: it
finds the index of an exactly matching entry, or reports the insertion
point — the number of entries strictly below the key — when absent. -/
theorem binarySearchGo_correct (a : List Nat) (x : Nat)
    (hs : List.Pairwise (fun m n => m < n) a) :
    ∀ (fuel lo hi : Nat), hi - lo ≤ fuel → lo ≤ hi → hi ≤ a.length →
    (∀ j (hj : j < a.length), j < lo → a[j] < x) →
    (∀ j (hj : j < a.length), hi ≤ j → x < a[j]) →
    binarySearchGo a x fuel lo hi =
      if x ∈ a then
        Except.ok ((a.filter (fun b => decide (b < x))).length)
      else Except.error ((a.filter (fun b => decide (b < x))).length) := by
  have hmono := List.pairwise_iff_getElem.mp hs
  intro fuel
  induction fuel with
  | zero =>
    intro lo hi hfuel hlohi hhi hlow hhigh
    have hlh : hi = lo := by omega
    subst hlh
    have hnf := bs_not_found a x hi (by omega) hlow hhigh
    rw [binarySearchGo_zero, if_neg hnf.1, hnf.2]
  | succ m ih =>
    intro lo hi hfuel hlohi hhi hlow hhigh
    rw [binarySearchGo_succ]
    by_cases hlt : lo < hi
    · rw [if_pos hlt]
      have hm1 : lo ≤ (lo + hi) / 2 := by omega
      have hm2 : (lo + hi) / 2 < hi := by omega
      have hmid : (lo + hi) / 2 < a.length := by omega
      rw [getD_eq_getElem a 0 ((lo + hi) / 2) hmid]
      by_cases hb1 : a[(lo + hi) / 2] < x
      · rw [if_pos hb1]
        refine ih ((lo + hi) / 2 + 1) hi (by omega) (by omega) hhi ?_ hhigh
        intro j hj hjm
        rcases Nat.lt_or_ge j ((lo + hi) / 2) with h | h
        · have := hmono j ((lo + hi) / 2) hj hmid h
          omega
        · have hje : j = (lo + hi) / 2 := by omega
          subst hje
          exact hb1
      · rw [if_neg hb1]
        by_cases hb2 : x < a[(lo + hi) / 2]
        · rw [if_pos hb2]
          refine ih lo ((lo + hi) / 2) (by omega) (by omega) (by omega)
            hlow ?_
          intro j hj hjm
          rcases Nat.lt_or_ge ((lo + hi) / 2) j with h | h
          · have := hmono ((lo + hi) / 2) j hmid hj h
            omega
          · have hje : j = (lo + hi) / 2 := by omega
            subst hje
            exact hb2
        · rw [if_neg hb2]
          have heq : a[(lo + hi) / 2] = x := by omega
          have hmem : x ∈ a := heq ▸ List.getElem_mem hmid
          rw [if_pos hmem]
          have hft := filter_eq_take (fun b => decide (b < x)) a
            ((lo + hi) / 2) (by omega)
            (fun j hj hjlt => by
              have := hmono j ((lo + hi) / 2) hj hmid hjlt
              simp
              omega)
            (fun j hj hjle => by
              rcases Nat.eq_or_lt_of_le hjle with h | h
              · have hje : j = (lo + hi) / 2 := h.symm
                subst hje
                simp
                omega
              · have := hmono ((lo + hi) / 2) j hmid hj h
                simp
                omega)
          rw [hft, List.length_take_of_le (by omega)]
    · rw [if_neg hlt]
      have hlh : hi = lo := by omega
      subst hlh
      have hnf := bs_not_found a x hi (by omega) hlow hhigh
      rw [if_neg hnf.1, hnf.2]

/-- The category computed from the search result: index + 1 on an exact
match, the insertion point otherwise; uniformly, the number of strictly
smaller entries plus one exactly when the key is present. -/
theorem searchPos_eq (a : List Nat) (x : Nat)
    (hs : List.Pairwise (fun m n => m < n) a) :
    searchPos a x =
      (a.filter (fun b => decide (b < x))).length +
        if x ∈ a then 1 else 0 := by
  unfold searchPos binary_search
  rw [binarySearchGo_correct a x hs a.length 0 a.length (by omega)
    (by omega) (Nat.le_refl _)
    (fun j _ h => absurd h (Nat.not_lt_zero j))
    (fun j hj h => absurd hj (by omega))]
  by_cases hmem : x ∈ a
  · rw [if_pos hmem, if_pos hmem]
  · rw [if_neg hmem, if_neg hmem]
    simp

theorem gubf_snd (table : List Nat) (chars : List Char) (i : Nat)
    (h : i < chars.length) :
    (get_unicode_block_and_feature table chars i).2 =
      zeroPad3 (Nat.repr (searchPos table (chars.getD i 'a').toNat)) := by
  unfold get_unicode_block_and_feature
  rw [if_neg (by omega)]

theorem zeroPad3_length (s : String) : 3 ≤ (zeroPad3 s).length := by
  unfold zeroPad3
  rw [String.length_append, String.length_mk, List.length_replicate]
  omega

/-- C3: for every in-range index and sorted block table, the block category
is the binary-search position — the matching entry's index plus one on an
exact match (for a strictly sorted table, one more than the number of
strictly smaller entries), the insertion point (the number of entries
strictly below the code point) otherwise — rendered as a zero-padded
3-digit decimal string.  The table itself is generated data outside the
sources; sortedness is the spec's stated precondition. -/
theorem C3_block_category (table : List Nat) (chars : List Char)
    (index : Nat) (hs : List.Pairwise (fun m n => m < n) table)
    (h : index < chars.length) :
    get_unicode_block_and_feature table chars index =
      (String.mk [chars[index]],
        zeroPad3 (Nat.repr
          ((table.filter
              (fun b => decide (b < (chars[index]).toNat))).length +
            if (chars[index]).toNat ∈ table then 1 else 0))) := by
  refine Prod.ext ?_ ?_
  · rw [gubf_fst]
    unfold charStr
    rw [if_neg (by omega), getD_eq_getElem chars 'a' index h]
  · rw [gubf_snd table chars index h, getD_eq_getElem chars 'a' index h,
      searchPos_eq table (chars[index]).toNat hs]

/-- Witness for C3: code point 98 against the one-entry table [97] falls
after the entry, category 1, rendered "001". -/
theorem C3_block_category_witness :
    get_unicode_block_and_feature [97] ['b'] 0 =
      (String.mk ['b'],
        zeroPad3 (Nat.repr
          (([97].filter
              (fun b => decide (b < ('b' : Char).toNat))).length +
            if ('b' : Char).toNat ∈ [97] then 1 else 0))) :=
  C3_block_category [97] ['b'] 0 (by simp) (by decide)

/-- C4: `get_unicode_block_and_feature` is total: outside `[0, len)` it
returns the sentinel pair (empty character string, block string "▔"), and
every in-range position returns a pair distinct from the sentinel — its
character rendering is the single (hence non-empty) character at the
index, and its block rendering (a 3-digit zero-padded number) differs from
the sentinel glyph. -/
theorem C4_block_total_sentinel (table : List Nat) (chars : List Char)
    (index : Nat) :
    (chars.length ≤ index →
      get_unicode_block_and_feature table chars index =
        ("", INVALID_FEATURE)) ∧
    (∀ h : index < chars.length,
      (get_unicode_block_and_feature table chars index).1 =
        String.mk [chars[index]] ∧
      (get_unicode_block_and_feature table chars index).1 ≠ "" ∧
      (get_unicode_block_and_feature table chars index).2 ≠
        INVALID_FEATURE ∧
      get_unicode_block_and_feature table chars index ≠
        ("", INVALID_FEATURE)) := by
  constructor
  · intro h
    unfold get_unicode_block_and_feature
    rw [if_pos h]
  · intro h
    have h1 : (get_unicode_block_and_feature table chars index).1 =
        String.mk [chars[index]] := by
      rw [gubf_fst]
      unfold charStr
      rw [if_neg (by omega), getD_eq_getElem chars 'a' index h]
    have h2 : (get_unicode_block_and_feature table chars index).1 ≠ "" := by
      rw [h1]
      intro hc
      exact List.cons_ne_nil _ _ (congrArg String.data hc)
    have h3 : (get_unicode_block_and_feature table chars index).2 ≠
        INVALID_FEATURE := by
      rw [gubf_snd table chars index h]
      intro hc
      have hlen := congrArg String.length hc
      have h3l :=
        zeroPad3_length (Nat.repr (searchPos table
          (chars.getD index 'a').toNat))
      have hinv : INVALID_FEATURE.length = 1 := by decide
      omega
    refine ⟨h1, h2, h3, ?_⟩
    intro hc
    exact h2 (congrArg Prod.fst hc)

/-- Witness for C4: an out-of-range index yields the sentinel, an in-range
one does not. -/
theorem C4_block_total_sentinel_witness :
    get_unicode_block_and_feature [] ['a'] 5 = ("", INVALID_FEATURE) ∧
      (get_unicode_block_and_feature [] ['a'] 0).2 ≠ INVALID_FEATURE :=
  ⟨(C4_block_total_sentinel [] ['a'] 5).1 (by decide),
    ((C4_block_total_sentinel [] ['a'] 0).2 (by decide)).2.2.1⟩

end Budoux
